import Mathlib

/-!
# changelog-generator: commit classification, message cleaning, grouping and rendering

A shallow embedding of `internal/lib/git.go` and `cmd/changelog/markdown.go`.

Go strings are byte sequences.  `len`, indexing and slicing work on bytes, while
`for _, c := range s` decodes UTF-8 and `string(c)` encodes a rune again.  The
embedding keeps this distinction: a `GoString` is a list of byte values, `runes`
is the decoding performed by `range`, `encoderune` is the conversion `string(c)`.
-/

namespace Changelog

/-! ## Go strings -/

/-- A Go `string`: its bytes, in order. -/
abbrev GoString := List Nat

/-- The replacement character U+FFFD that Go yields for an invalid UTF-8 sequence. -/
def runeError : Nat := 0xFFFD

/-- Continuation byte test of the Go runtime (`locb <= b && b <= hicb`). -/
def isCont (b : Nat) : Bool := 0x80 ≤ b && b ≤ 0xBF

/-- The conversion `string(r)` of a rune (Go runtime `encoderune`).  The bit operations
`t | byte(r>>k)&maskx` are written arithmetically (`/` for the shift, `%` for the mask,
`+` for the disjoint or). -/
def encoderune (r : Nat) : GoString :=
  if r ≤ 0x7F then [r]
  else if r ≤ 0x7FF then [0xC0 + r / 64, 0x80 + r % 64]
  else if 0x10FFFF < r ∨ (0xD800 ≤ r ∧ r ≤ 0xDFFF) then [0xEF, 0xBF, 0xBD]
  else if r ≤ 0xFFFF then [0xE0 + r / 4096, 0x80 + r / 64 % 64, 0x80 + r % 64]
  else [0xF0 + r / 262144, 0x80 + r / 4096 % 64, 0x80 + r / 64 % 64, 0x80 + r % 64]

/-- One step of `for _, c := range s` on a non-empty string: the rune decoded at the
front and the number of bytes it takes (Go runtime `decoderune`, with the ASCII fast
path of the loop).  An invalid sequence gives U+FFFD and advances by one byte. -/
def decoderune : GoString → Nat × Nat
  | [] => (runeError, 1)
  | s0 :: rest =>
    if s0 < 0x80 then (s0, 1)
    else if 0xC0 ≤ s0 ∧ s0 < 0xE0 then
      match rest with
      | s1 :: _ =>
        if isCont s1 ∧ 0x7F < s0 % 32 * 64 + s1 % 64 then (s0 % 32 * 64 + s1 % 64, 2)
        else (runeError, 1)
      | _ => (runeError, 1)
    else if 0xE0 ≤ s0 ∧ s0 < 0xF0 then
      match rest with
      | s1 :: s2 :: _ =>
        let r := s0 % 16 * 4096 + s1 % 64 * 64 + s2 % 64
        if isCont s1 ∧ isCont s2 ∧ 0x7FF < r ∧ ¬ (0xD800 ≤ r ∧ r ≤ 0xDFFF) then (r, 3)
        else (runeError, 1)
      | _ => (runeError, 1)
    else if 0xF0 ≤ s0 ∧ s0 < 0xF8 then
      match rest with
      | s1 :: s2 :: s3 :: _ =>
        let r := s0 % 8 * 262144 + s1 % 64 * 4096 + s2 % 64 * 64 + s3 % 64
        if isCont s1 ∧ isCont s2 ∧ isCont s3 ∧ 0xFFFF < r ∧ r ≤ 0x10FFFF then (r, 4)
        else (runeError, 1)
      | _ => (runeError, 1)
    else (runeError, 1)

/-- The runes visited by `range s`, where the first `skip` bytes belong to a rune that
has already been produced. -/
def runesFrom : Nat → GoString → List Nat
  | _, [] => []
  | 0, b :: s => (decoderune (b :: s)).1 :: runesFrom ((decoderune (b :: s)).2 - 1) s
  | k + 1, _ :: s => runesFrom k s

/-- The sequence of runes that `for _, c := range s` iterates over. -/
def runes (s : GoString) : List Nat := runesFrom 0 s

/-- A string literal of the source, as its UTF-8 bytes. -/
def str (s : String) : GoString := s.toList.flatMap fun c => encoderune c.toNat

/-- The slice expression `s[i:j]`. -/
def slice (s : GoString) (i j : Nat) : GoString := (s.drop i).take (j - i)

/-! ## `internal/lib/git.go` -/

/-- A git commit (`Date` is the author time stamp, which no modelled function inspects). -/
structure Commit where
  Hash : GoString
  Author : GoString
  Date : Int
  Message : GoString
deriving DecidableEq, Repr

/-- The type `CommitCategory`, a named string type. -/
abbrev CommitCategory := GoString

def CategoryFeature : CommitCategory := str " Features"
def CategoryFix : CommitCategory := str " Bug Fixes"
def CategoryBreaking : CommitCategory := str "  Breaking Changes"
def CategoryDocs : CommitCategory := str " Documentation"
def CategoryPerformance : CommitCategory := str " Performance"
def CategoryRefactor : CommitCategory := str "  Refactoring"
def CategoryTest : CommitCategory := str " Tests"
def CategoryChore : CommitCategory := str " Chores"
def CategoryOther : CommitCategory := str " Other"

/-- Loop body of `toLower`: what one rune appends to `result`. -/
def toLowerRune (c : Nat) : GoString :=
  if 65 ≤ c ∧ c ≤ 90 then encoderune (c + 32) else encoderune c

/-- The loop of `toLower` over the runes still to visit, `result` being the accumulator. -/
def toLowerLoop : List Nat → GoString → GoString
  | [], result => result
  | c :: cs, result => toLowerLoop cs (result ++ toLowerRune c)

/-- Source function `toLower`. -/
def toLower (s : GoString) : GoString := toLowerLoop (runes s) []

/-- Source function `contains`: the loop `for i := 0; i <= len(s)-len(substr); i++`
returning at the first `i` with `s[i:i+len(substr)] == substr`. -/
def contains (s substr : GoString) : Bool :=
  if substr.length > s.length then false
  else (List.range (s.length - substr.length + 1)).any fun i =>
    decide (slice s i (i + substr.length) = substr)

/-- Source function `containsAny`. -/
def containsAny (msg : GoString) (keywords : List GoString) : Bool :=
  keywords.any fun keyword => contains (toLower msg) (toLower keyword)

/-- Source function `hasPrefix`. -/
def hasPrefix (msg pfx : GoString) : Bool :=
  [pfx ++ str ":", pfx ++ str "(", pfx ++ str "!"].any fun pattern =>
    decide (msg.length ≥ pattern.length) && decide (slice msg 0 pattern.length = pattern)

/-- Source function `CategorizeCommit`. -/
def CategorizeCommit (commit : Commit) : CommitCategory :=
  let msg := commit.Message
  if containsAny msg [str "BREAKING CHANGE", str "BREAKING:", str "!"] then CategoryBreaking
  else if hasPrefix msg (str "feat") then CategoryFeature
  else if hasPrefix msg (str "fix") then CategoryFix
  else if hasPrefix msg (str "docs") then CategoryDocs
  else if hasPrefix msg (str "perf") then CategoryPerformance
  else if hasPrefix msg (str "refactor") then CategoryRefactor
  else if hasPrefix msg (str "test") then CategoryTest
  else if hasPrefix msg (str "chore") then CategoryChore
  else if containsAny msg [str "add", str "implement", str "create", str "new"] then
    CategoryFeature
  else if containsAny msg [str "fix", str "bug", str "issue", str "resolve"] then CategoryFix
  else if containsAny msg [str "update", str "improve"] then CategoryRefactor
  else CategoryOther

/-- A Go `map[CommitCategory][]*Commit`: the slice stored under each key, `none` for a
key that is absent. -/
abbrev CommitGroups := CommitCategory → Option (List Commit)

/-- The index expression `groups[category]` (the nil slice for an absent key). -/
def CommitGroups.index (groups : CommitGroups) (category : CommitCategory) : List Commit :=
  (groups category).getD []

/-- The assignment `groups[category] = v`. -/
def CommitGroups.assign (groups : CommitGroups) (category : CommitCategory)
    (v : List Commit) : CommitGroups :=
  fun k => if k = category then some v else groups k

/-- Source function `GroupCommitsByCategory`: the loop over `commits`, started from
`make(map[CommitCategory][]*Commit)`. -/
def GroupCommitsByCategory (commits : List Commit) : CommitGroups :=
  commits.foldl
    (fun groups commit =>
      let category := CategorizeCommit commit
      groups.assign category (groups.index category ++ [commit]))
    (fun _ => none)

/-! ## `cmd/changelog/markdown.go` -/

/-- First loop of `cleanCommitMessage`: copy runes into `cleaned` until a newline. -/
def firstLineLoop : List Nat → GoString → GoString
  | [], cleaned => cleaned
  | c :: cs, cleaned => if c = 10 then cleaned else firstLineLoop cs (cleaned ++ encoderune c)

/-- Second loop of `cleanCommitMessage`: the first prefix that `cleaned` starts with
(and is longer than) is removed, then one leading space. -/
def stripPrefixLoop : List GoString → GoString → GoString
  | [], cleaned => cleaned
  | pfx :: rest, cleaned =>
    if cleaned.length > pfx.length ∧ slice cleaned 0 pfx.length = pfx then
      let cleaned := cleaned.drop pfx.length
      if cleaned.length > 0 ∧ cleaned.head? = some 32 then cleaned.drop 1 else cleaned
    else stripPrefixLoop rest cleaned

/-- Third loop of `cleanCommitMessage`, with its two variables `result` and `skipUntil`. -/
def scopeLoop : List Nat → GoString → Nat → GoString
  | [], result, _ => result
  | c :: cs, result, skipUntil =>
    if c = 40 ∧ skipUntil = 0 then scopeLoop cs result 41
    else if skipUntil ≠ 0 then
      if c = skipUntil then scopeLoop cs result 0 else scopeLoop cs result skipUntil
    else scopeLoop cs (result ++ encoderune c) skipUntil

/-- The step `if len(result) > 2 && result[:2] == ": " { result = result[2:] }`. -/
def stripColon (result : GoString) : GoString :=
  if result.length > 2 ∧ slice result 0 2 = str ": " then result.drop 2 else result

/-- The step that capitalises the first byte when it is in `'a'..'z'`. -/
def capitalize (result : GoString) : GoString :=
  match result with
  | [] => result
  | first :: tail => if 97 ≤ first ∧ first ≤ 122 then encoderune (first - 32) ++ tail else result

/-- The list `prefixes` of `cleanCommitMessage`. -/
def cleanPrefixes : List GoString :=
  [str "feat:", str "fix:", str "docs:", str "chore:", str "test:", str "refactor:", str "perf:"]

/-- Source function `cleanCommitMessage`. -/
def cleanCommitMessage (msg : GoString) : GoString :=
  let cleaned := firstLineLoop (runes msg) []
  let cleaned := stripPrefixLoop cleanPrefixes cleaned
  let result := scopeLoop (runes cleaned) [] 0
  capitalize (stripColon result)

/-- The verb `%d` of `fmt.Sprintf` on a length. -/
def fmtInt (n : Nat) : GoString := str (toString n)

/-- The display order `categories` of `GenerateMarkdown`. -/
def categoryOrder : List CommitCategory :=
  [CategoryBreaking, CategoryFeature, CategoryFix, CategoryPerformance, CategoryRefactor,
   CategoryDocs, CategoryTest, CategoryChore, CategoryOther]

/-- Inner loop of `GenerateMarkdown`: one item line per commit of the category. -/
def commitLinesLoop : List Commit → GoString → GoString
  | [], md => md
  | commit :: cs, md =>
    let message := cleanCommitMessage commit.Message
    commitLinesLoop cs (md ++ (str "- " ++ message ++ str " ([" ++ commit.Hash ++ str "])\n"))

/-- Outer loop of `GenerateMarkdown` over the categories still to render. -/
def categoryLoop (groups : CommitGroups) : List CommitCategory → GoString → GoString
  | [], md => md
  | category :: rest, md =>
    match groups category with
    | none => categoryLoop groups rest md
    | some categoryCommits =>
      if categoryCommits.length = 0 then categoryLoop groups rest md
      else
        let md := md ++ (str "### " ++ category ++ str "\n\n")
        let md := commitLinesLoop categoryCommits md
        categoryLoop groups rest (md ++ str "\n")

/-- Source function `GenerateMarkdown`; `date` stands for
`time.Now().Format("January 2, 2006")`. -/
def GenerateMarkdown (commits : List Commit) (projectName version date : GoString) :
    GoString :=
  let md := str "# Changelog - " ++ projectName ++ str "\n\n"
  let md := md ++ (str "## Version " ++ version ++ str "\n")
  let md := md ++ (str "**Generated:** " ++ date ++ str "\n\n")
  let groups := GroupCommitsByCategory commits
  let md := categoryLoop groups categoryOrder md
  let md := md ++ str "---\n"
  md ++ (str "*Total commits: " ++ fmtInt commits.length ++ str "*\n")

/-! ## `internal/lib/ai.go` -/

/-- The remote call `callClaude` of an `AIClient`: from the prompt to the text of the
response, or to an error.  The HTTP exchange is outside the program, so the call is a
parameter of the functions that use it. -/
abbrev RemoteCall := GoString → Except GoString GoString

/-- Source function `cleanCommitMessageAI`: the runes of `msg` up to the first newline. -/
def cleanCommitMessageAI (msg : GoString) : GoString :=
  firstLineLoop (runes msg) []

/-- The prompt that `ImproveCommitMessage` formats around the commit message. -/
def improvePrompt (msg : GoString) : GoString :=
  str "You are helping to create a changelog. \n\nGiven this git commit message: \"" ++ msg ++
    str ("\"\n\nPlease improve it to be:\n" ++
      "1. Clear and user-friendly (for non-technical users)\n" ++
      "2. Focused on WHAT changed, not HOW\n" ++
      "3. One sentence, under 80 characters\n" ++
      "4. Start with a capital letter\n\n" ++
      "Just respond with the improved message, nothing else.")

/-- Source function `ImproveCommitMessage`: the returned string and the returned error
(`none` for `nil`). -/
def ImproveCommitMessage (callClaude : RemoteCall) (commit : Commit) :
    GoString × Option GoString :=
  let prompt := improvePrompt commit.Message
  match callClaude prompt with
  | .error _ => (cleanCommitMessageAI commit.Message, none)
  | .ok response => (response, none)

/-- Source function `ImproveAllCommits`: the loop over the commits, which are distinct
records updated in place; the result is the list after the loop.  The progress lines
written to standard output are left out. -/
def ImproveAllCommits (callClaude : RemoteCall) : List Commit → List Commit
  | [] => []
  | commit :: rest =>
    match ImproveCommitMessage callClaude commit with
    | (_, some _) => commit :: ImproveAllCommits callClaude rest
    | (improved, none) => { commit with Message := improved } :: ImproveAllCommits callClaude rest

/-! ## `cmd/changelog/main.go` -/

/-- What `rootCmd.Execute()` leaves behind: either a command ended the process itself
with `os.Exit(code)`, or the call returned with an error or `nil`; `stdout` is the text
written to standard output so far. -/
inductive ExecResult where
  | exited (stdout : GoString) (code : Nat)
  | returned (stdout : GoString) (err : Option GoString)
deriving DecidableEq

/-- The function `Run` of `rootCmd`: the lines it prints, appended to `stdout`. -/
def rootRun (stdout : GoString) : GoString :=
  stdout ++ str " Welcome to Changelog Generator!\n" ++ str "\n" ++
    str "Available commands:\n" ++ str "  init      - Initialize configuration\n" ++
    str "  generate  - Generate a changelog\n" ++ str "\n" ++
    str "Run 'changelog --help' for more information\n"

/-- Source function `main`: standard output and exit status of the process.  The command
dispatch `rootCmd.Execute()` of the cobra library is the parameter `execute`.  The
statement after `os.Exit(1)` is never reached. -/
def main (execute : GoString → ExecResult) : GoString × Nat :=
  match execute [] with
  | .exited stdout code => (stdout, code)
  | .returned stdout err =>
    let stdout :=
      match err with
      | some e => stdout ++ e ++ str "\n"
      | none => stdout
    (stdout, 1)

/-- The dispatch of the cobra library when the program is started without a subcommand:
it calls `rootCmd.Run` and returns `nil`. -/
def executeBare (stdout : GoString) : ExecResult :=
  .returned (rootRun stdout) none

/-! ## Reference notions used to state the properties -/

/-- Lower-casing of one byte: the ASCII capitals move to the small letters. -/
def lowerByte (b : Nat) : Nat := if 65 ≤ b ∧ b ≤ 90 then b + 32 else b

/-- Two byte strings are equal when the case of ASCII letters is ignored. -/
def eqFold (a b : GoString) : Prop := a.map lowerByte = b.map lowerByte

instance (a b : GoString) : Decidable (eqFold a b) := by
  unfold eqFold
  infer_instance

/-- The keyword `kw` occurs in `msg` as a substring when the case of ASCII letters is
ignored in both. -/
def containsFold (msg kw : GoString) : Prop := kw.map lowerByte <:+: msg.map lowerByte

instance (msg kw : GoString) : Decidable (containsFold msg kw) := by
  unfold containsFold
  infer_instance

/-- The conventional types with the category of each, in the order of the prefix rule. -/
def conventionalTypes : List (GoString × CommitCategory) :=
  [(str "feat", CategoryFeature), (str "fix", CategoryFix), (str "docs", CategoryDocs),
   (str "perf", CategoryPerformance), (str "refactor", CategoryRefactor),
   (str "test", CategoryTest), (str "chore", CategoryChore)]

/-- The prefix rule for one conventional type: the message starts with the type followed
by ":" or by "(". -/
def startsWithType (msg : GoString) (pc : GoString × CommitCategory) : Bool :=
  decide (pc.1 ++ str ":" <+: msg ∨ pc.1 ++ str "(" <+: msg)

/-- The keyword fallback, after the wording of the rule: case-insensitive substring
matches against the whole message, tried in the order Feature, Fix, Refactor. -/
def keywordFallback (msg : GoString) : CommitCategory :=
  if ∃ kw ∈ [str "add", str "implement", str "create", str "new"], containsFold msg kw then
    CategoryFeature
  else if ∃ kw ∈ [str "fix", str "bug", str "issue", str "resolve"], containsFold msg kw then
    CategoryFix
  else if ∃ kw ∈ [str "update", str "improve"], containsFold msg kw then CategoryRefactor
  else CategoryOther

/-- Reference classification of a message that is not Breaking, after the wording of the
rules: the category of the first conventional type the message starts with; otherwise the
keyword fallback; otherwise Other. -/
def classifyRef (msg : GoString) : CommitCategory :=
  match conventionalTypes.find? (startsWithType msg) with
  | some pc => pc.2
  | none => keywordFallback msg

/-- The first line of a message, as the first loop of `cleanCommitMessage` builds it. -/
def firstLine (msg : GoString) : GoString := firstLineLoop (runes msg) []

/-- The third loop of `cleanCommitMessage` run on the text `cleaned`. -/
def stripScopes (cleaned : GoString) : GoString := scopeLoop (runes cleaned) [] 0

/-- The steps of `cleanCommitMessage` that follow the prefix removal: scope-group removal,
removal of a leading ": ", capitalisation of the first letter. -/
def finishClean (cleaned : GoString) : GoString := capitalize (stripColon (stripScopes cleaned))

/-- Removal of exactly one leading space, when there is one. -/
def dropOneSpace : GoString → GoString
  | 32 :: s => s
  | s => s

/-- The conversion `string([]rune(s))`: every rune of `s` encoded again.  It changes only
bytes that are not valid UTF-8. -/
def reencode (s : GoString) : GoString := (runes s).flatMap encoderune

/-- The first line of a raw message: its bytes before the first newline byte. -/
def rawFirstLine (msg : GoString) : GoString := msg.takeWhile fun b => decide (b ≠ 10)

/-- What the enhancement step may leave of the commit `c`, as `c'`: hash, author and date
are kept; when the remote call for `c` succeeds the message is the returned text; when it
fails the message is the raw first line with every byte that is not part of a valid UTF-8
sequence replaced by U+FFFD, which is the raw first line itself when the raw message is
the UTF-8 form of a Unicode text. -/
def enhancedFrom (callClaude : RemoteCall) (c c' : Commit) : Prop :=
  c'.Hash = c.Hash ∧ c'.Author = c.Author ∧ c'.Date = c.Date ∧
  (∀ r, callClaude (improvePrompt c.Message) = .ok r → c'.Message = r) ∧
  (∀ e, callClaude (improvePrompt c.Message) = .error e →
    c'.Message = reencode (rawFirstLine c.Message) ∧
    ∀ text : String, c.Message = str text → c'.Message = rawFirstLine c.Message)

/-- The item line of one commit, after the format "- {cleaned message} ([{hash}])\n". -/
def renderItem (commit : Commit) : GoString :=
  str "- " ++ cleanCommitMessage commit.Message ++ str " ([" ++ commit.Hash ++ str "])\n"

/-- The section of one category in the reference layout: nothing when no commit falls in
the category, else the header "### {label}\n\n", one item line per commit of the category
in input order, and a blank line. -/
def renderSection (commits : List Commit) (c : CommitCategory) : GoString :=
  if commits.filter (fun y => CategorizeCommit y = c) = [] then []
  else str "### " ++ c ++ str "\n\n" ++
    (commits.filter (fun y => CategorizeCommit y = c)).flatMap renderItem ++ str "\n"

/-- Reference layout of the changelog document: header, the sections of the categories in
the display order Breaking, Feature, Fix, Performance, Refactor, Docs, Test, Chore, Other,
and the footer with the number of commits. -/
def renderRef (commits : List Commit) (projectName version date : GoString) : GoString :=
  str "# Changelog - " ++ projectName ++ str "\n\n## Version " ++ version ++
    str "\n**Generated:** " ++ date ++ str "\n\n" ++
    [CategoryBreaking, CategoryFeature, CategoryFix, CategoryPerformance, CategoryRefactor,
      CategoryDocs, CategoryTest, CategoryChore, CategoryOther].flatMap (renderSection commits) ++
    str "---\n*Total commits: " ++ fmtInt commits.length ++ str "*\n"

/-- The three commits of the end-to-end example. -/
def demoCommits : List Commit :=
  [⟨str "a1", str "dev", 0, str "feat: add search"⟩,
   ⟨str "b2", str "dev", 0, str "fix(ui): button alignment"⟩,
   ⟨str "c3", str "dev", 0, str "docs: update readme"⟩]

/-- A rune that `string(r)` encodes as itself: a Unicode scalar value. -/
def validRune (r : Nat) : Prop := r ≤ 0x10FFFF ∧ ¬ (0xD800 ≤ r ∧ r ≤ 0xDFFF)

/-- A string that `range` reads without replacing anything: valid UTF-8. -/
def validUtf8 (s : GoString) : Prop := reencode s = s

/-! ## Decoding and encoding: what `range` and `string(c)` do to ASCII and non-ASCII bytes -/

theorem decoderune_ascii (b : Nat) (s : GoString) (h : b < 128) :
    decoderune (b :: s) = (b, 1) := by
  simp [decoderune, h]

theorem decoderune_nonascii (b : Nat) (s : GoString) (h : 128 ≤ b) :
    128 ≤ (decoderune (b :: s)).1 ∧ 1 ≤ (decoderune (b :: s)).2 ∧
      (decoderune (b :: s)).2 - 1 ≤ s.length ∧
      ∀ x ∈ s.take ((decoderune (b :: s)).2 - 1), 128 ≤ x := by
  have hb : ¬ b < 128 := by omega
  unfold decoderune
  simp only [hb, if_false]
  split_ifs with h2 h3 h4
  · split
    · split_ifs with h5
      · simp [isCont] at h5 ⊢
        omega
      · simp [runeError]
    · simp [runeError]
  · split
    · split_ifs with h5
      · simp [isCont] at h5 ⊢
        omega
      · simp [runeError]
    · simp [runeError]
  · split
    · split_ifs with h5
      · simp [isCont] at h5 ⊢
        omega
      · simp [runeError]
    · simp [runeError]
  · simp [runeError]

theorem encoderune_ascii (r : Nat) (h : r < 128) : encoderune r = [r] := by
  have : r ≤ 127 := by omega
  simp [encoderune, this]

theorem encoderune_nonascii (r : Nat) (h : 128 ≤ r) :
    encoderune r ≠ [] ∧ ∀ x ∈ encoderune r, 128 ≤ x := by
  have : ¬ r ≤ 127 := by omega
  unfold encoderune
  simp only [this, if_false]
  split_ifs <;> simp <;> omega

theorem runesFrom_drop (k : Nat) (s : GoString) : runesFrom k s = runes (s.drop k) := by
  induction s generalizing k with
  | nil => simp [runes, runesFrom]
  | cons b s ih =>
    cases k with
    | zero => simp [runes]
    | succ k => simp [runesFrom, ih]

theorem runes_nil : runes [] = [] := rfl

theorem runes_cons (b : Nat) (s : GoString) :
    runes (b :: s) =
      (decoderune (b :: s)).1 :: runes (s.drop ((decoderune (b :: s)).2 - 1)) := by
  show runesFrom 0 (b :: s) = _
  rw [runesFrom, runesFrom_drop]

theorem runes_cons_ascii (b : Nat) (s : GoString) (h : b < 128) :
    runes (b :: s) = b :: runes s := by
  rw [runes_cons, decoderune_ascii b s h]
  simp

/-- Induction over a Go string one decoded rune at a time: an ASCII byte is a rune of
its own, any other rune takes a non-empty block of bytes that are all at least 128. -/
theorem goString_induction {P : GoString → Prop} (hnil : P [])
    (hascii : ∀ b s, b < 128 → P s → P (b :: s))
    (hmulti : ∀ seg s r, seg ≠ [] → (∀ x ∈ seg, 128 ≤ x) → 128 ≤ r →
      runes (seg ++ s) = r :: runes s → P s → P (seg ++ s)) :
    ∀ s, P s := by
  suffices H : ∀ n (s : GoString), s.length = n → P s from fun s => H _ s rfl
  intro n
  induction n using Nat.strong_induction_on with
  | _ n ih =>
    intro s hn
    cases s with
    | nil => exact hnil
    | cons b t =>
      by_cases hb : b < 128
      · exact hascii b t hb (ih t.length (by simp at hn; omega) t rfl)
      · have hb2 : 128 ≤ b := by omega
        obtain ⟨h1, _, h3, h4⟩ := decoderune_nonascii b t hb2
        have hsplit : b :: t = (b :: t.take ((decoderune (b :: t)).2 - 1)) ++
            t.drop ((decoderune (b :: t)).2 - 1) := by simp
        rw [hsplit]
        apply hmulti _ _ (decoderune (b :: t)).1 (by simp) _ h1
        · rw [← hsplit, runes_cons]
        · exact ih _ (by simp at hn ⊢; omega) _ rfl
        · intro x hx
          simp only [List.mem_cons] at hx
          rcases hx with rfl | hx
          · exact hb2
          · exact h4 x hx

/-- What `range` decodes at the front of a text does not change when an ASCII byte and
more text are appended: an ASCII byte never continues a multi-byte sequence. -/
theorem decoderune_append_ascii (b : Nat) (p : GoString) (a : Nat) (rest : GoString)
    (ha : a < 128) : decoderune (b :: p ++ a :: rest) = decoderune (b :: p) := by
  have ha2 : ¬ 128 ≤ a := by omega
  rcases p with _ | ⟨c, _ | ⟨d, _ | ⟨e, p⟩⟩⟩ <;>
    rcases rest with _ | ⟨r1, _ | ⟨r2, rest⟩⟩ <;>
    simp [decoderune, isCont, ha2]

theorem runes_append_ascii (pre : GoString) (a : Nat) (rest : GoString) (ha : a < 128) :
    runes (pre ++ a :: rest) = runes pre ++ a :: runes rest := by
  suffices H : ∀ n (pre : GoString), pre.length = n →
      runes (pre ++ a :: rest) = runes pre ++ a :: runes rest from H _ pre rfl
  intro n
  induction n using Nat.strong_induction_on with
  | _ n ih =>
    intro pre hn
    cases pre with
    | nil => simpa [runes_nil] using runes_cons_ascii a rest ha
    | cons b p =>
      have hk : (decoderune (b :: p)).2 - 1 ≤ p.length := by
        by_cases hb : b < 128
        · rw [decoderune_ascii b p hb]
          simp
        · exact (decoderune_nonascii b p (by omega)).2.2.1
      rw [List.cons_append, runes_cons, ← List.cons_append, decoderune_append_ascii b p a rest ha,
        runes_cons b p, List.drop_append_of_le_length hk,
        ih _ (by simp at hn ⊢; omega) _ rfl]
      rfl

/-- An ASCII rune that `range` yields is a byte of the string. -/
theorem mem_of_mem_runes (c : Nat) (hc : c < 128) (s : GoString) : c ∈ runes s → c ∈ s := by
  induction s using goString_induction with
  | hnil => simp [runes_nil]
  | hascii b s hb ih =>
    rw [runes_cons_ascii b s hb]
    simp only [List.mem_cons]
    rintro (h | h)
    · exact Or.inl h
    · exact Or.inr (ih h)
  | hmulti seg s r _ _ hr hrunes ih =>
    rw [hrunes]
    simp only [List.mem_cons, List.mem_append]
    rintro (h | h)
    · omega
    · exact Or.inr (ih h)

/-- The bytes of an encoded rune are ASCII only for an ASCII rune, which is its own byte. -/
theorem mem_encoderune_ascii (c r : Nat) (hc : c < 128) (h : c ∈ encoderune r) : c = r := by
  by_cases hr : r < 128
  · rw [encoderune_ascii r hr] at h
    simpa using h
  · have := (encoderune_nonascii r (by omega)).2 c h
    omega

/-! ## Round trip: a string built by `string(c)` from decoded runes is read back as is -/

theorem decoderune_two (s0 s1 : Nat) (t : GoString) (h0 : 0xC0 ≤ s0 ∧ s0 < 0xE0)
    (h1 : 0x80 ≤ s1 ∧ s1 ≤ 0xBF) (hv : 0x7F < s0 % 32 * 64 + s1 % 64) :
    decoderune (s0 :: s1 :: t) = (s0 % 32 * 64 + s1 % 64, 2) := by
  have : ¬ s0 < 128 := by omega
  simp [decoderune, isCont, this, h0, h1, hv]

theorem decoderune_three (s0 s1 s2 : Nat) (t : GoString) (h0 : 0xE0 ≤ s0 ∧ s0 < 0xF0)
    (h1 : 0x80 ≤ s1 ∧ s1 ≤ 0xBF) (h2 : 0x80 ≤ s2 ∧ s2 ≤ 0xBF)
    (hv : 0x7FF < s0 % 16 * 4096 + s1 % 64 * 64 + s2 % 64)
    (hs : ¬ (0xD800 ≤ s0 % 16 * 4096 + s1 % 64 * 64 + s2 % 64 ∧
      s0 % 16 * 4096 + s1 % 64 * 64 + s2 % 64 ≤ 0xDFFF)) :
    decoderune (s0 :: s1 :: s2 :: t) = (s0 % 16 * 4096 + s1 % 64 * 64 + s2 % 64, 3) := by
  have a1 : ¬ s0 < 128 := by omega
  have a2 : ¬ (192 ≤ s0 ∧ s0 < 224) := by omega
  simp only [decoderune, isCont, if_neg a1, if_neg a2, if_pos h0]
  rw [if_pos]
  refine ⟨by simp; omega, by simp; omega, hv, hs⟩

theorem decoderune_four (s0 s1 s2 s3 : Nat) (t : GoString) (h0 : 0xF0 ≤ s0 ∧ s0 < 0xF8)
    (h1 : 0x80 ≤ s1 ∧ s1 ≤ 0xBF) (h2 : 0x80 ≤ s2 ∧ s2 ≤ 0xBF) (h3 : 0x80 ≤ s3 ∧ s3 ≤ 0xBF)
    (hv : 0xFFFF < s0 % 8 * 262144 + s1 % 64 * 4096 + s2 % 64 * 64 + s3 % 64)
    (hm : s0 % 8 * 262144 + s1 % 64 * 4096 + s2 % 64 * 64 + s3 % 64 ≤ 0x10FFFF) :
    decoderune (s0 :: s1 :: s2 :: s3 :: t) =
      (s0 % 8 * 262144 + s1 % 64 * 4096 + s2 % 64 * 64 + s3 % 64, 4) := by
  have a1 : ¬ s0 < 128 := by omega
  have a2 : ¬ (192 ≤ s0 ∧ s0 < 224) := by omega
  have a3 : ¬ (224 ≤ s0 ∧ s0 < 240) := by omega
  simp only [decoderune, isCont, if_neg a1, if_neg a2, if_neg a3, if_pos h0]
  rw [if_pos]
  refine ⟨by simp; omega, by simp; omega, by simp; omega, hv, hm⟩

theorem decoderune_encoderune (r : Nat) (hr : validRune r) (t : GoString) :
    decoderune (encoderune r ++ t) = (r, (encoderune r).length) := by
  unfold validRune at hr
  unfold encoderune
  split_ifs with h1 h2 h3 h4
  · simp only [List.singleton_append, List.length_singleton]
    exact decoderune_ascii r t (by omega)
  · simp only [List.cons_append, List.nil_append, List.length_cons, List.length_nil]
    rw [decoderune_two _ _ _ (by omega) (by omega) (by omega)]
    refine Prod.ext ?_ rfl
    simp only
    omega
  · exact absurd h3 (by omega)
  · simp only [List.cons_append, List.nil_append, List.length_cons, List.length_nil]
    rw [decoderune_three _ _ _ _ (by omega) (by omega) (by omega) (by omega) (by omega)]
    refine Prod.ext ?_ rfl
    simp only
    omega
  · simp only [List.cons_append, List.nil_append, List.length_cons, List.length_nil]
    rw [decoderune_four _ _ _ _ _ (by omega) (by omega) (by omega) (by omega) (by omega)
      (by omega)]
    refine Prod.ext ?_ rfl
    simp only
    omega

theorem decoderune_valid (s : GoString) : validRune (decoderune s).1 := by
  unfold validRune decoderune
  split
  · simp [runeError]
  · split_ifs <;> try (simp [runeError]; done)
    · simp; omega
    all_goals
      split
      · try dsimp only
        split_ifs with h5
        · simp [isCont] at h5 ⊢
          omega
        · simp [runeError]
      · simp [runeError]

theorem runes_encoderune_append (r : Nat) (hr : validRune r) (t : GoString) :
    runes (encoderune r ++ t) = r :: runes t := by
  have hd := decoderune_encoderune r hr t
  cases he : encoderune r with
  | nil =>
    by_cases h : r < 128
    · rw [encoderune_ascii r h] at he
      exact absurd he (by simp)
    · exact absurd he (encoderune_nonascii r (by omega)).1
  | cons b bs =>
    rw [he] at hd
    rw [List.cons_append, runes_cons, ← List.cons_append, hd]
    simp

theorem runes_flatMap_encoderune (cs : List Nat) (h : ∀ c ∈ cs, validRune c) :
    runes (cs.flatMap encoderune) = cs := by
  induction cs with
  | nil => rfl
  | cons c cs ih =>
    rw [List.flatMap_cons, runes_encoderune_append c (h c (by simp)),
      ih (fun x hx => h x (by simp [hx]))]

theorem runes_valid (s : GoString) : ∀ c ∈ runes s, validRune c := by
  suffices H : ∀ n (s : GoString), s.length = n → ∀ c ∈ runes s, validRune c from H _ s rfl
  intro n
  induction n using Nat.strong_induction_on with
  | _ n ih =>
    intro s hn c hc
    cases s with
    | nil => simp [runes_nil] at hc
    | cons b t =>
      rw [runes_cons] at hc
      rcases List.mem_cons.1 hc with h | h
      · rw [h]
        exact decoderune_valid _
      · exact ih _ (by simp at hn ⊢; omega) _ rfl c h

/-- Encoding the runes of any string gives valid UTF-8. -/
theorem validUtf8_flatMap (cs : List Nat) (h : ∀ c ∈ cs, validRune c) :
    validUtf8 (cs.flatMap encoderune) := by
  unfold validUtf8 reencode
  rw [runes_flatMap_encoderune cs h]

theorem reencode_cons_ascii (a : Nat) (s : GoString) (ha : a < 128) :
    reencode (a :: s) = a :: reencode s := by
  unfold reencode
  rw [runes_cons_ascii a s ha, List.flatMap_cons, encoderune_ascii a ha]
  rfl

theorem reencode_append_ascii (pre : GoString) (a : Nat) (rest : GoString) (ha : a < 128) :
    reencode (pre ++ a :: rest) = reencode pre ++ a :: reencode rest := by
  unfold reencode
  rw [runes_append_ascii pre a rest ha, List.flatMap_append, List.flatMap_cons,
    encoderune_ascii a ha]
  rfl

theorem validUtf8_of_cons (a : Nat) (s : GoString) (ha : a < 128) (h : validUtf8 (a :: s)) :
    validUtf8 s := by
  unfold validUtf8 at h ⊢
  rw [reencode_cons_ascii a s ha] at h
  exact List.tail_eq_of_cons_eq h

theorem validUtf8_of_append (p s : GoString) (hp : ∀ b ∈ p, b < 128) (h : validUtf8 (p ++ s)) :
    validUtf8 s := by
  induction p with
  | nil => exact h
  | cons b p ih =>
    exact ih (fun x hx => hp x (by simp [hx]))
      (validUtf8_of_cons b (p ++ s) (hp b (by simp)) h)

theorem append_cons_left_inj {a : Nat} {x1 x2 z1 z2 : List Nat} (h1 : a ∉ x1) (h2 : a ∉ x2)
    (h : x1 ++ a :: z1 = x2 ++ a :: z2) : x1 = x2 := by
  induction x1 generalizing x2 with
  | nil =>
    cases x2 with
    | nil => rfl
    | cons c x2 =>
      simp only [List.nil_append, List.cons_append, List.cons.injEq] at h
      exact absurd (List.mem_cons.2 (Or.inl h.1)) h2
  | cons b x1 ih =>
    cases x2 with
    | nil =>
      simp only [List.nil_append, List.cons_append, List.cons.injEq] at h
      exact absurd (List.mem_cons.2 (Or.inl h.1.symm)) h1
    | cons c x2 =>
      simp only [List.cons_append, List.cons.injEq] at h
      rw [h.1, ih (fun hm => h1 (List.mem_cons_of_mem _ hm))
        (fun hm => h2 (List.mem_cons_of_mem _ hm)) h.2]

/-- In valid UTF-8 the text before an ASCII byte is valid UTF-8. -/
theorem validUtf8_before (pre : GoString) (a : Nat) (rest : GoString) (ha : a < 128)
    (hpre : a ∉ pre) (h : validUtf8 (pre ++ a :: rest)) : validUtf8 pre := by
  unfold validUtf8 at h ⊢
  rw [reencode_append_ascii pre a rest ha] at h
  have hre : a ∉ reencode pre := by
    intro hm
    unfold reencode at hm
    obtain ⟨c, hc, hac⟩ := List.mem_flatMap.1 hm
    have := mem_encoderune_ascii a c ha hac
    subst this
    exact hpre (mem_of_mem_runes a ha pre hc)
  exact append_cons_left_inj hre hpre h

/-! ## The helpers `toLower`, `contains`, `containsAny`, `hasPrefix` -/

theorem toLowerLoop_eq (cs : List Nat) (acc : GoString) :
    toLowerLoop cs acc = acc ++ cs.flatMap toLowerRune := by
  induction cs generalizing acc with
  | nil => simp [toLowerLoop]
  | cons c cs ih => simp [toLowerLoop, ih]

theorem toLower_eq (s : GoString) : toLower s = (runes s).flatMap toLowerRune := by
  simp [toLower, toLowerLoop_eq]

theorem toLowerRune_ascii (b : Nat) (h : b < 128) : toLowerRune b = [lowerByte b] := by
  unfold toLowerRune lowerByte
  split_ifs with h1
  · exact encoderune_ascii _ (by omega)
  · exact encoderune_ascii _ h

theorem toLowerRune_nonascii (r : Nat) (h : 128 ≤ r) : toLowerRune r = encoderune r := by
  unfold toLowerRune
  rw [if_neg (by omega)]

theorem lowerByte_nonascii (b : Nat) (h : 128 ≤ b) : lowerByte b = b := by
  unfold lowerByte
  rw [if_neg (by omega)]

theorem lowerByte_lt (b : Nat) (h : b < 128) : lowerByte b < 128 := by
  unfold lowerByte
  split_ifs <;> omega

theorem toLower_cons_ascii (b : Nat) (s : GoString) (h : b < 128) :
    toLower (b :: s) = lowerByte b :: toLower s := by
  simp [toLower_eq, runes_cons_ascii b s h, toLowerRune_ascii b h]

theorem toLower_multi (seg s : GoString) (r : Nat) (hr : 128 ≤ r)
    (h : runes (seg ++ s) = r :: runes s) :
    toLower (seg ++ s) = encoderune r ++ toLower s := by
  simp [toLower_eq, h, toLowerRune_nonascii r hr]

/-- On an ASCII string `toLower` is the byte-wise lower-casing. -/
theorem toLower_ascii (kw : GoString) (h : ∀ b ∈ kw, b < 128) :
    toLower kw = kw.map lowerByte := by
  induction kw with
  | nil => rfl
  | cons b kw ih =>
    rw [toLower_cons_ascii b kw (h b (by simp)), ih (fun x hx => h x (by simp [hx]))]
    rfl

theorem map_lowerByte_nonascii (seg : GoString) (h : ∀ x ∈ seg, 128 ≤ x) :
    seg.map lowerByte = seg := by
  induction seg with
  | nil => rfl
  | cons b seg ih =>
    simp only [List.map_cons]
    rw [lowerByte_nonascii b (h b (by simp)), ih (fun x hx => h x (by simp [hx]))]

theorem prefix_nonascii_iff (E L kw : GoString) (hE : E ≠ []) (hE2 : ∀ e ∈ E, 128 ≤ e)
    (hkw : ∀ k ∈ kw, k < 128) : kw <+: E ++ L ↔ kw = [] := by
  constructor
  · intro h
    cases kw with
    | nil => rfl
    | cons k kw =>
      cases E with
      | nil => exact absurd rfl hE
      | cons e E =>
        rw [List.cons_append, List.cons_prefix_cons] at h
        have h1 := hkw k (by simp)
        have h2 := hE2 e (by simp)
        omega
  · rintro rfl
    exact List.nil_prefix

theorem infix_nonascii_iff (E L kw : GoString) (hE2 : ∀ e ∈ E, 128 ≤ e)
    (hkw : ∀ k ∈ kw, k < 128) (hne : kw ≠ []) : kw <:+: E ++ L ↔ kw <:+: L := by
  induction E with
  | nil => simp
  | cons e E ih =>
    rw [List.cons_append, List.infix_cons_iff, ih (fun x hx => hE2 x (by simp [hx]))]
    constructor
    · rintro (h | h)
      · have := (prefix_nonascii_iff (e :: E) L kw (by simp) hE2 hkw).1 h
        exact absurd this hne
      · exact h
    · exact Or.inr

/-- An ASCII keyword occurs in `toLower msg` exactly when it occurs in the byte-wise
lower-casing of `msg`: bytes that do not decode are replaced by non-ASCII bytes. -/
theorem toLower_occurs_iff (msg : GoString) :
    ∀ kw : GoString, (∀ k ∈ kw, k < 128) →
      (kw <+: toLower msg ↔ kw <+: msg.map lowerByte) ∧
      (kw <:+: toLower msg ↔ kw <:+: msg.map lowerByte) := by
  induction msg using goString_induction with
  | hnil => intro kw _; exact ⟨Iff.rfl, Iff.rfl⟩
  | hascii b s hb ih =>
    intro kw hkw
    rw [toLower_cons_ascii b s hb, List.map_cons]
    have hpre : kw <+: lowerByte b :: toLower s ↔ kw <+: lowerByte b :: s.map lowerByte := by
      cases kw with
      | nil => simp
      | cons k kw =>
        rw [List.cons_prefix_cons, List.cons_prefix_cons,
          (ih kw (fun x hx => hkw x (by simp [hx]))).1]
    refine ⟨hpre, ?_⟩
    rw [List.infix_cons_iff, List.infix_cons_iff, hpre, (ih kw hkw).2]
  | hmulti seg s r hseg hseg2 hr hrunes ih =>
    intro kw hkw
    rw [toLower_multi seg s r hr hrunes, List.map_append, map_lowerByte_nonascii seg hseg2]
    obtain ⟨he1, he2⟩ := encoderune_nonascii r hr
    constructor
    · rw [prefix_nonascii_iff _ _ kw he1 he2 hkw, prefix_nonascii_iff _ _ kw hseg hseg2 hkw]
    · by_cases hne : kw = []
      · subst hne
        simp
      · rw [infix_nonascii_iff _ _ kw he2 hkw hne, infix_nonascii_iff _ _ kw hseg2 hkw hne]
        exact (ih kw hkw).2

/-- The loop of `contains` finds exactly the substrings. -/
theorem contains_iff (s sub : GoString) : contains s sub = true ↔ sub <:+: s := by
  unfold contains slice
  constructor
  · intro h
    split_ifs at h with hlen
    simp only [List.any_eq_true, List.mem_range, decide_eq_true_eq] at h
    obtain ⟨i, _, hi⟩ := h
    refine ⟨s.take i, (s.drop i).drop sub.length, ?_⟩
    have h2 : i + sub.length - i = sub.length := by omega
    rw [h2] at hi
    rw [List.append_assoc]
    nth_rewrite 1 [← hi]
    rw [List.take_append_drop, List.take_append_drop]
  · rintro ⟨pre, post, rfl⟩
    rw [if_neg (by simp; omega)]
    simp only [List.any_eq_true, List.mem_range, decide_eq_true_eq]
    refine ⟨pre.length, by simp; omega, ?_⟩
    have h2 : pre.length + sub.length - pre.length = sub.length := by omega
    rw [h2, List.append_assoc, List.drop_left, List.take_left]

theorem containsFold_iff (msg kw : GoString) :
    containsFold msg kw ↔ ∃ w, w <:+: msg ∧ eqFold w kw := by
  unfold containsFold eqFold
  constructor
  · rintro ⟨pre, post, h⟩
    obtain ⟨l1, post', h1, h2, h3⟩ := List.map_eq_append_iff.1 h.symm
    obtain ⟨pre', w, h4, h5, h6⟩ := List.map_eq_append_iff.1 h2
    exact ⟨w, ⟨pre', post', by rw [h1, h4]⟩, h6⟩
  · rintro ⟨w, ⟨pre, post, rfl⟩, h⟩
    exact ⟨pre.map lowerByte, post.map lowerByte, by simp [h]⟩

/-- For ASCII keywords `containsAny` is the case-insensitive substring test. -/
theorem containsAny_iff (msg : GoString) (keywords : List GoString)
    (h : ∀ kw ∈ keywords, ∀ b ∈ kw, b < 128) :
    containsAny msg keywords = true ↔ ∃ kw ∈ keywords, containsFold msg kw := by
  unfold containsAny containsFold
  simp only [List.any_eq_true]
  constructor
  · rintro ⟨kw, hkw, hc⟩
    refine ⟨kw, hkw, ?_⟩
    rw [contains_iff, toLower_ascii kw (h kw hkw)] at hc
    exact ((toLower_occurs_iff msg _
      (by intro k hk; simp only [List.mem_map] at hk; obtain ⟨a, ha, rfl⟩ := hk
          exact lowerByte_lt a (h kw hkw a ha))).2).1 hc
  · rintro ⟨kw, hkw, hc⟩
    refine ⟨kw, hkw, ?_⟩
    rw [contains_iff, toLower_ascii kw (h kw hkw)]
    exact ((toLower_occurs_iff msg _
      (by intro k hk; simp only [List.mem_map] at hk; obtain ⟨a, ha, rfl⟩ := hk
          exact lowerByte_lt a (h kw hkw a ha))).2).2 hc

theorem infix_map_lowerByte {w msg : GoString} (h : w <:+: msg) :
    w.map lowerByte <:+: msg.map lowerByte := by
  obtain ⟨a, b, rfl⟩ := h
  exact ⟨a.map lowerByte, b.map lowerByte, by simp⟩

/-- The list of patterns of `hasPrefix`, as a statement about prefixes of the message. -/
theorem hasPrefix_iff (msg pfx : GoString) :
    hasPrefix msg pfx = true ↔
      (pfx ++ str ":" <+: msg ∨ pfx ++ str "(" <+: msg ∨ pfx ++ str "!" <+: msg) := by
  have key : ∀ pattern : GoString,
      (decide (msg.length ≥ pattern.length) && decide (slice msg 0 pattern.length = pattern))
        = true ↔ pattern <+: msg := by
    intro pattern
    simp only [Bool.and_eq_true, decide_eq_true_eq, slice, List.drop_zero, Nat.sub_zero]
    constructor
    · rintro ⟨_, h⟩
      exact List.prefix_iff_eq_take.2 h.symm
    · intro h
      exact ⟨h.length_le, (List.prefix_iff_eq_take.1 h).symm⟩
  unfold hasPrefix
  simp only [List.any_cons, List.any_nil, Bool.or_false, Bool.or_eq_true, key]

/-- The keyword lists of `CategorizeCommit` are ASCII. -/
theorem keywords_ascii :
    (∀ kw ∈ [str "BREAKING CHANGE", str "BREAKING:", str "!"], ∀ b ∈ kw, b < 128) ∧
    (∀ kw ∈ [str "add", str "implement", str "create", str "new"], ∀ b ∈ kw, b < 128) ∧
    (∀ kw ∈ [str "fix", str "bug", str "issue", str "resolve"], ∀ b ∈ kw, b < 128) ∧
    (∀ kw ∈ [str "update", str "improve"], ∀ b ∈ kw, b < 128) := by
  decide

theorem ite_ne_of_ne {α : Type} {c : Prop} [Decidable c] {a b x : α} (ha : a ≠ x)
    (hb : b ≠ x) : (if c then a else b) ≠ x := by
  split_ifs
  · exact ha
  · exact hb

/-- The result is the Breaking label exactly when the first test of `CategorizeCommit`
succeeds. -/
theorem categorize_breaking_iff (commit : Commit) :
    CategorizeCommit commit = CategoryBreaking ↔
      containsAny commit.Message [str "BREAKING CHANGE", str "BREAKING:", str "!"] = true := by
  unfold CategorizeCommit
  dsimp only
  by_cases h : containsAny commit.Message [str "BREAKING CHANGE", str "BREAKING:", str "!"] = true
  · rw [if_pos h]
    exact ⟨fun _ => h, fun _ => rfl⟩
  · rw [if_neg h]
    refine ⟨fun h2 => absurd h2 ?_, fun h2 => absurd h2 h⟩
    exact ite_ne_of_ne (by decide) (ite_ne_of_ne (by decide) (ite_ne_of_ne (by decide)
      (ite_ne_of_ne (by decide) (ite_ne_of_ne (by decide) (ite_ne_of_ne (by decide)
      (ite_ne_of_ne (by decide) (ite_ne_of_ne (by decide) (ite_ne_of_ne (by decide)
      (ite_ne_of_ne (by decide) (by decide))))))))))

/-- A message that holds one of the Breaking markers passes the first test of
`CategorizeCommit`. -/
theorem containsAny_of_marker (msg kw : GoString)
    (hkw : kw ∈ [str "BREAKING CHANGE", str "BREAKING:", str "!"]) (h : kw <:+: msg) :
    containsAny msg [str "BREAKING CHANGE", str "BREAKING:", str "!"] = true :=
  (containsAny_iff _ _ keywords_ascii.1).2 ⟨kw, hkw, infix_map_lowerByte h⟩

/-! ## Classification: the Breaking rule -/

/-- C1: a commit message that contains "BREAKING CHANGE", "BREAKING:" or "!" anywhere is
classified Breaking by `CategorizeCommit`, whatever else it contains. -/
theorem categorize_breaking_of_marker (commit : Commit)
    (h : str "BREAKING CHANGE" <:+: commit.Message ∨ str "BREAKING:" <:+: commit.Message ∨
      str "!" <:+: commit.Message) :
    CategorizeCommit commit = CategoryBreaking := by
  rw [categorize_breaking_iff]
  rcases h with h | h | h
  · exact containsAny_of_marker _ _ (by simp) h
  · exact containsAny_of_marker _ _ (by simp) h
  · exact containsAny_of_marker _ _ (by simp) h

/-- C1, at the message "feat!: add BREAKING: new login", which also starts with a
conventional prefix and holds feature keywords. -/
theorem categorize_breaking_of_marker_witness :
    (str "BREAKING CHANGE" <:+: str "feat!: add BREAKING: new login" ∨
      str "BREAKING:" <:+: str "feat!: add BREAKING: new login" ∨
      str "!" <:+: str "feat!: add BREAKING: new login") ∧
    CategorizeCommit ⟨str "a1", str "dev", 0, str "feat!: add BREAKING: new login"⟩ =
      CategoryBreaking :=
  ⟨by decide, categorize_breaking_of_marker
    ⟨str "a1", str "dev", 0, str "feat!: add BREAKING: new login"⟩ (by decide)⟩

/-- C2 as stated fails: "breaking change: drop v1" holds none of the three literals
byte for byte, yet `CategorizeCommit` classifies it Breaking. -/
theorem categorize_breaking_lowercase_counterexample :
    CategorizeCommit ⟨str "a1", str "dev", 0, str "breaking change: drop v1"⟩ =
      CategoryBreaking ∧
    ¬ (str "BREAKING CHANGE" <:+: str "breaking change: drop v1" ∨
      str "BREAKING:" <:+: str "breaking change: drop v1" ∨
      str "!" <:+: str "breaking change: drop v1") := by
  decide

/-- C2, amended: the Breaking rule ignores the case of ASCII letters.  `CategorizeCommit`
returns the Breaking category exactly when some substring of the message equals
"BREAKING CHANGE", "BREAKING:" or "!" up to the case of ASCII letters. -/
theorem categorize_breaking_iff_fold (commit : Commit) :
    CategorizeCommit commit = CategoryBreaking ↔
      ∃ kw ∈ [str "BREAKING CHANGE", str "BREAKING:", str "!"],
        ∃ w, w <:+: commit.Message ∧ eqFold w kw := by
  rw [categorize_breaking_iff, containsAny_iff _ _ keywords_ascii.1]
  simp only [containsFold_iff]

/-! ## Classification: prefixes and keyword fallback -/

theorem classifyRef_eq_foldr (msg : GoString) :
    classifyRef msg = conventionalTypes.foldr
      (fun pc acc => if startsWithType msg pc = true then pc.2 else acc)
      (keywordFallback msg) := by
  unfold classifyRef
  generalize conventionalTypes = tests
  induction tests with
  | nil => rfl
  | cons t tests ih =>
    rw [List.foldr_cons, ← ih, List.find?_cons]
    cases startsWithType msg t <;> simp

/-- In a message without "!", `hasPrefix` is the test for the type followed by ":" or
"(". -/
theorem hasPrefix_eq_startsWithType (msg : GoString) (pc : GoString × CommitCategory)
    (h : ¬ str "!" <:+: msg) : hasPrefix msg pc.1 = startsWithType msg pc := by
  rw [Bool.eq_iff_iff, hasPrefix_iff]
  unfold startsWithType
  rw [decide_eq_true_eq]
  constructor
  · rintro (h1 | h1 | h1)
    · exact Or.inl h1
    · exact Or.inr h1
    · exfalso
      obtain ⟨t, ht⟩ := h1
      exact h ⟨pc.1, t, ht⟩
  · rintro (h1 | h1)
    · exact Or.inl h1
    · exact Or.inr (Or.inl h1)

/-- C3: for a commit that `CategorizeCommit` does not classify as Breaking, the result is
the reference classification: the category of the conventional type that the message
starts with (followed by ":" or "("), else the case-insensitive keyword fallback in the
order Feature, Fix, Refactor, else Other. -/
theorem categorize_eq_classifyRef (commit : Commit)
    (h : CategorizeCommit commit ≠ CategoryBreaking) :
    CategorizeCommit commit = classifyRef commit.Message := by
  have hb : ¬ containsAny commit.Message [str "BREAKING CHANGE", str "BREAKING:", str "!"]
      = true := fun hc => h ((categorize_breaking_iff commit).2 hc)
  have hbang : ¬ str "!" <:+: commit.Message := fun hc =>
    hb (containsAny_of_marker _ _ (by simp) hc)
  rw [classifyRef_eq_foldr]
  unfold CategorizeCommit keywordFallback conventionalTypes
  dsimp only
  rw [if_neg hb]
  simp only [List.foldr_cons, List.foldr_nil]
  rw [← hasPrefix_eq_startsWithType _ (str "feat", CategoryFeature) hbang,
    ← hasPrefix_eq_startsWithType _ (str "fix", CategoryFix) hbang,
    ← hasPrefix_eq_startsWithType _ (str "docs", CategoryDocs) hbang,
    ← hasPrefix_eq_startsWithType _ (str "perf", CategoryPerformance) hbang,
    ← hasPrefix_eq_startsWithType _ (str "refactor", CategoryRefactor) hbang,
    ← hasPrefix_eq_startsWithType _ (str "test", CategoryTest) hbang,
    ← hasPrefix_eq_startsWithType _ (str "chore", CategoryChore) hbang]
  simp only [containsAny_iff _ _ keywords_ascii.2.1, containsAny_iff _ _ keywords_ascii.2.2.1,
    containsAny_iff _ _ keywords_ascii.2.2.2]

/-- C3, at "feat: add login". -/
theorem categorize_eq_classifyRef_witness :
    CategorizeCommit ⟨str "a1", str "dev", 0, str "feat: add login"⟩ ≠ CategoryBreaking ∧
    CategorizeCommit ⟨str "a1", str "dev", 0, str "feat: add login"⟩ =
      classifyRef (str "feat: add login") :=
  ⟨by decide, categorize_eq_classifyRef ⟨str "a1", str "dev", 0, str "feat: add login"⟩
    (by decide)⟩

/-- The instances of the classification rules named with C3. -/
theorem categorize_instances :
    CategorizeCommit ⟨str "a1", str "dev", 0, str "feat: add login"⟩ = CategoryFeature ∧
    CategorizeCommit ⟨str "a1", str "dev", 0, str "feat(auth): add login"⟩ = CategoryFeature ∧
    CategorizeCommit ⟨str "a1", str "dev", 0, str "fix: null pointer"⟩ = CategoryFix ∧
    CategorizeCommit ⟨str "a1", str "dev", 0, str "update docs for api"⟩ = CategoryRefactor ∧
    CategorizeCommit ⟨str "a1", str "dev", 0, str "banana"⟩ = CategoryOther := by
  decide

/-! ## Message cleaning -/

theorem cleanCommitMessage_eq (msg : GoString) :
    cleanCommitMessage msg = finishClean (stripPrefixLoop cleanPrefixes (firstLine msg)) :=
  rfl

/-- C4, evaluated: on "feat(auth): add login\nmore text" the code returns
"Feat: add login", because "feat(" is not one of the literal prefixes and the text left
after the scope group does not start with ": "; the claimed result is "Add login". -/
theorem clean_scoped_header_value :
    cleanCommitMessage (str "feat(auth): add login\nmore text") = str "Feat: add login" ∧
    cleanCommitMessage (str "feat(auth): add login\nmore text") ≠ str "Add login" := by
  decide

/-- No literal prefix of `cleanCommitMessage` is a proper prefix of another. -/
theorem cleanPrefixes_incomparable :
    ∀ p ∈ cleanPrefixes, ∀ q ∈ cleanPrefixes, p <+: q → p = q := by
  decide

theorem dropOneSpace_eq (c : GoString) :
    (if c.length > 0 ∧ c.head? = some 32 then c.drop 1 else c) = dropOneSpace c := by
  cases c with
  | nil => simp [dropOneSpace]
  | cons b c =>
    by_cases hb : b = 32
    · subst hb
      simp [dropOneSpace]
    · rw [if_neg (by simp [hb])]
      unfold dropOneSpace
      split
      · rename_i heq
        simp only [List.cons.injEq] at heq
        exact absurd heq.1 hb
      · rfl

/-- The prefix loop removes the literal prefix that a longer text starts with, and then
one space. -/
theorem stripPrefixLoop_of_prefix (L : List GoString)
    (hL : ∀ p ∈ L, ∀ q ∈ L, p <+: q → p = q) (pfx : GoString) (hp : pfx ∈ L)
    (cleaned : GoString) (h : pfx <+: cleaned) (hlen : pfx.length < cleaned.length) :
    stripPrefixLoop L cleaned = dropOneSpace (cleaned.drop pfx.length) := by
  induction L with
  | nil => simp at hp
  | cons q rest ih =>
    unfold stripPrefixLoop
    by_cases hq : q = pfx
    · subst hq
      have hs : slice cleaned 0 q.length = q := by
        simp only [slice, List.drop_zero, Nat.sub_zero]
        exact (List.prefix_iff_eq_take.1 h).symm
      rw [if_pos ⟨hlen, hs⟩]
      exact dropOneSpace_eq _
    · have hneg : ¬ (cleaned.length > q.length ∧ slice cleaned 0 q.length = q) := by
        rintro ⟨_, hs⟩
        simp only [slice, List.drop_zero, Nat.sub_zero] at hs
        have hqc : q <+: cleaned := List.prefix_iff_eq_take.2 hs.symm
        rcases List.prefix_or_prefix_of_prefix hqc h with h1 | h1
        · exact hq (hL q (by simp) pfx hp h1)
        · exact hq (hL pfx hp q (by simp) h1).symm
      rw [if_neg hneg]
      have hp2 : pfx ∈ rest := by
        rcases List.mem_cons.1 hp with h1 | h1
        · exact absurd h1.symm hq
        · exact h1
      exact ih (fun p hp q hq => hL p (List.mem_cons_of_mem _ hp) q (List.mem_cons_of_mem _ hq))
        hp2

/-- C5 as stated fails when the first line is the prefix alone: for "feat:" nothing is
removed and the result is "Feat:", while the remaining steps on the empty remainder give
the empty string. -/
theorem clean_prefix_alone_counterexample :
    str "feat:" ∈ cleanPrefixes ∧ str "feat:" <+: firstLine (str "feat:") ∧
    cleanCommitMessage (str "feat:") = str "Feat:" ∧
    finishClean (dropOneSpace ((firstLine (str "feat:")).drop (str "feat:").length)) = [] ∧
    cleanCommitMessage (str "feat:") ≠
      finishClean (dropOneSpace ((firstLine (str "feat:")).drop (str "feat:").length)) := by
  decide

/-- C5, amended: when the first line starts with one of the literal prefixes feat:, fix:,
docs:, chore:, test:, refactor:, perf: and is longer than that prefix, `cleanCommitMessage`
removes the prefix and then exactly one following space if present, and returns what the
remaining steps (scope-group removal, leading ": " removal, capitalisation) give on that
remainder. -/
theorem clean_strips_prefix (msg pfx : GoString) (hp : pfx ∈ cleanPrefixes)
    (h : pfx <+: firstLine msg) (hlen : pfx.length < (firstLine msg).length) :
    cleanCommitMessage msg =
      finishClean (dropOneSpace ((firstLine msg).drop pfx.length)) := by
  rw [cleanCommitMessage_eq,
    stripPrefixLoop_of_prefix cleanPrefixes cleanPrefixes_incomparable pfx hp _ h hlen]

/-- C5 amended, at "fix: resolve crash". -/
theorem clean_strips_prefix_witness :
    (str "fix:" ∈ cleanPrefixes ∧ str "fix:" <+: firstLine (str "fix: resolve crash") ∧
      (str "fix:").length < (firstLine (str "fix: resolve crash")).length) ∧
    cleanCommitMessage (str "fix: resolve crash") =
      finishClean (dropOneSpace ((firstLine (str "fix: resolve crash")).drop
        (str "fix:").length)) :=
  ⟨by decide, clean_strips_prefix (str "fix: resolve crash") (str "fix:") (by decide)
    (by decide) (by decide)⟩

/-- The instance named with C5. -/
theorem clean_fix_instance :
    cleanCommitMessage (str "fix: resolve crash") = str "Resolve crash" := by
  decide

theorem firstLineLoop_eq (cs : List Nat) (acc : GoString) :
    firstLineLoop cs acc = acc ++ (cs.takeWhile (fun c => decide (c ≠ 10))).flatMap encoderune := by
  induction cs generalizing acc with
  | nil => simp [firstLineLoop]
  | cons c cs ih =>
    unfold firstLineLoop
    by_cases hc : c = 10
    · rw [if_pos hc, List.takeWhile_cons_of_neg (by simpa using hc)]
      simp
    · rw [if_neg hc, ih, List.takeWhile_cons_of_pos (by simpa using hc)]
      simp

theorem takeWhile_flatMap_encoderune (cs : List Nat) :
    (cs.flatMap encoderune).takeWhile (fun b => decide (b ≠ 10)) =
      (cs.takeWhile (fun c => decide (c ≠ 10))).flatMap encoderune := by
  induction cs with
  | nil => rfl
  | cons c cs ih =>
    by_cases hc : c = 10
    · subst hc
      rw [List.takeWhile_cons_of_neg (by simp), List.flatMap_cons, encoderune_ascii 10 (by omega)]
      rfl
    · rw [List.takeWhile_cons_of_pos (by simpa using hc), List.flatMap_cons, List.flatMap_cons,
        List.takeWhile_append_of_pos, ih]
      intro b hb
      have : b ≠ 10 := fun e => hc (mem_encoderune_ascii 10 c (by omega) (e ▸ hb)).symm
      simpa using this

/-- For a message in valid UTF-8 the first line is the text before the first newline. -/
theorem firstLine_eq_takeWhile (msg : GoString) (h : validUtf8 msg) :
    firstLine msg = msg.takeWhile (fun b => decide (b ≠ 10)) := by
  unfold firstLine
  rw [firstLineLoop_eq, List.nil_append, ← takeWhile_flatMap_encoderune]
  exact congrArg _ h

/-- The first line that `cleanCommitMessage` builds is valid UTF-8, whatever the message. -/
theorem firstLine_valid (msg : GoString) : validUtf8 (firstLine msg) := by
  unfold firstLine
  rw [firstLineLoop_eq, List.nil_append]
  exact validUtf8_flatMap _ (fun c hc => runes_valid msg c (List.takeWhile_subset _ hc))

theorem cleanPrefixes_ascii : ∀ p ∈ cleanPrefixes, ∀ b ∈ p, b < 128 := by
  decide

theorem validUtf8_dropOneSpace (c : GoString) (h : validUtf8 c) :
    validUtf8 (dropOneSpace c) := by
  unfold dropOneSpace
  split
  · exact validUtf8_of_cons 32 _ (by omega) h
  · exact h

theorem stripPrefixLoop_valid (L : List GoString) (hL : ∀ p ∈ L, ∀ b ∈ p, b < 128)
    (c : GoString) (h : validUtf8 c) : validUtf8 (stripPrefixLoop L c) := by
  induction L with
  | nil => exact h
  | cons q rest ih =>
    unfold stripPrefixLoop
    by_cases h1 : c.length > q.length ∧ slice c 0 q.length = q
    · have hc : q ++ c.drop q.length = c := by
        have := h1.2
        simp only [slice, List.drop_zero, Nat.sub_zero] at this
        nth_rewrite 1 [← this]
        exact List.take_append_drop _ _
      have hv : validUtf8 (c.drop q.length) :=
        validUtf8_of_append q _ (hL q (by simp)) (hc.symm ▸ h)
      rw [if_pos h1]
      dsimp only
      rw [dropOneSpace_eq]
      exact validUtf8_dropOneSpace _ hv
    · rw [if_neg h1]
      exact ih (fun p hp => hL p (List.mem_cons_of_mem _ hp))

/-- The text that reaches the scope loop is valid UTF-8. -/
theorem cleaned_valid (msg : GoString) :
    validUtf8 (stripPrefixLoop cleanPrefixes (firstLine msg)) :=
  stripPrefixLoop_valid _ cleanPrefixes_ascii _ (firstLine_valid msg)

theorem scopeLoop_acc (cs : List Nat) (acc : GoString) (k : Nat) :
    scopeLoop cs acc k = acc ++ scopeLoop cs [] k := by
  induction cs generalizing acc k with
  | nil => simp [scopeLoop]
  | cons c cs ih =>
    unfold scopeLoop
    split_ifs
    · exact ih acc 41
    · exact ih acc 0
    · exact ih acc k
    · rw [ih (acc ++ encoderune c) k, ih ([] ++ encoderune c) k]
      simp

/-- Outside a group, runes other than "(" are copied. -/
theorem scopeLoop_outside (cs rest : List Nat) (acc : GoString) (h : 40 ∉ cs) :
    scopeLoop (cs ++ rest) acc 0 = scopeLoop rest (acc ++ cs.flatMap encoderune) 0 := by
  induction cs generalizing acc with
  | nil => simp
  | cons c cs ih =>
    have hc : c ≠ 40 := fun e => h (by simp [e])
    rw [List.cons_append, scopeLoop, if_neg (by simp [hc]), if_neg (by simp),
      ih _ (fun hm => h (by simp [hm]))]
    simp

/-- Inside a group, runes other than ")" are discarded. -/
theorem scopeLoop_inside (cs rest : List Nat) (acc : GoString) (h : 41 ∉ cs) :
    scopeLoop (cs ++ rest) acc 41 = scopeLoop rest acc 41 := by
  induction cs with
  | nil => simp
  | cons c cs ih =>
    have hc : c ≠ 41 := fun e => h (by simp [e])
    rw [List.cons_append, scopeLoop, if_neg (by simp), if_pos (by simp), if_neg hc,
      ih (fun hm => h (by simp [hm]))]

/-- The scope loop never copies "(". -/
theorem scopeLoop_no_paren (cs : List Nat) (acc : GoString) (k : Nat) (h : 40 ∉ acc) :
    40 ∉ scopeLoop cs acc k := by
  induction cs generalizing acc k with
  | nil => simpa [scopeLoop] using h
  | cons c cs ih =>
    unfold scopeLoop
    split_ifs with h1 h2 h3
    · exact ih acc 41 h
    · exact ih acc 0 h
    · exact ih acc k h
    · apply ih
      simp only [List.mem_append, not_or]
      refine ⟨h, fun hm => ?_⟩
      have hc := mem_encoderune_ascii 40 c (by omega) hm
      have hk : k = 0 := by simpa using h2
      exact h1 ⟨hc.symm, hk⟩

theorem stripColon_no_paren (x : GoString) (h : 40 ∉ x) : 40 ∉ stripColon x := by
  unfold stripColon
  split_ifs
  · exact fun hm => h (List.mem_of_mem_drop hm)
  · exact h

theorem capitalize_no_paren (x : GoString) (h : 40 ∉ x) : 40 ∉ capitalize x := by
  unfold capitalize
  split
  · exact h
  · rename_i first tail
    split_ifs with h1
    · rw [encoderune_ascii _ (by omega)]
      simp only [List.singleton_append, List.mem_cons, not_or]
      exact ⟨by omega, fun hm => h (by simp [hm])⟩
    · exact h

/-- The result of `cleanCommitMessage` never contains "(". -/
theorem clean_no_open_paren (msg : GoString) : 40 ∉ cleanCommitMessage msg :=
  capitalize_no_paren _ (stripColon_no_paren _ (scopeLoop_no_paren _ _ _ (by simp)))

/-- The scope loop on a text `pre(grp)post`: the text before the group is copied, the group
is dropped, and the scan goes on in `post` as it started. -/
theorem stripScopes_group (pre grp post : GoString) (h1 : 40 ∉ pre) (h2 : 41 ∉ grp) :
    stripScopes (pre ++ 40 :: (grp ++ 41 :: post)) = reencode pre ++ stripScopes post := by
  unfold stripScopes reencode
  rw [runes_append_ascii pre 40 _ (by omega), runes_append_ascii grp 41 _ (by omega),
    scopeLoop_outside _ _ _ (fun hm => h1 (mem_of_mem_runes 40 (by omega) pre hm)),
    scopeLoop, if_pos ⟨rfl, rfl⟩,
    scopeLoop_inside _ _ _ (fun hm => h2 (mem_of_mem_runes 41 (by omega) grp hm)),
    scopeLoop, if_neg (by simp), if_pos (by simp), if_pos rfl, scopeLoop_acc]
  simp

/-- C6 as stated fails: for "add (a) and (b)" the result is "Add  and ", which does not
contain "(b)". -/
theorem clean_second_group_counterexample :
    cleanCommitMessage (str "add (a) and (b)") = str "Add  and " ∧
    ¬ str "(b)" <:+: cleanCommitMessage (str "add (a) and (b)") := by
  decide

/-- C6, amended: `cleanCommitMessage` strips every parenthesised group, not only the
first.  When the first line, after the prefix removal, reads `pre(grp)post` with no "(" in
`pre` and no ")" in `grp`, the group is discarded, `pre` is copied unchanged, and `post`
goes through the same scan again; no "(" ever reaches the result. -/
theorem clean_strips_every_group (msg pre grp post : GoString)
    (h0 : stripPrefixLoop cleanPrefixes (firstLine msg) = pre ++ 40 :: (grp ++ 41 :: post))
    (h1 : 40 ∉ pre) (h2 : 41 ∉ grp) :
    cleanCommitMessage msg = capitalize (stripColon (pre ++ stripScopes post)) ∧
      40 ∉ stripScopes post ∧ 40 ∉ cleanCommitMessage msg := by
  refine ⟨?_, scopeLoop_no_paren _ _ _ (by simp), clean_no_open_paren msg⟩
  have hv : validUtf8 pre :=
    validUtf8_before pre 40 _ (by omega) h1 (h0 ▸ cleaned_valid msg)
  rw [cleanCommitMessage_eq, h0]
  unfold finishClean
  rw [stripScopes_group pre grp post h1 h2, hv]

/-- C6 amended, at "add (a) and (b)" with `pre` = "add ", `grp` = "a", `post` = " and (b)". -/
theorem clean_strips_every_group_witness :
    (stripPrefixLoop cleanPrefixes (firstLine (str "add (a) and (b)")) =
        str "add " ++ 40 :: (str "a" ++ 41 :: str " and (b)") ∧
      40 ∉ str "add " ∧ 41 ∉ str "a") ∧
    (cleanCommitMessage (str "add (a) and (b)") =
        capitalize (stripColon (str "add " ++ stripScopes (str " and (b)"))) ∧
      40 ∉ stripScopes (str " and (b)") ∧ 40 ∉ cleanCommitMessage (str "add (a) and (b)")) :=
  ⟨by decide, clean_strips_every_group (str "add (a) and (b)") (str "add ") (str "a")
    (str " and (b)") (by decide) (by decide) (by decide)⟩

/-- C7: `cleanCommitMessage` is not idempotent; cleaning ": : a" gives ": a", and cleaning
that again gives "A". -/
theorem clean_not_idempotent :
    ∃ x : GoString, cleanCommitMessage (cleanCommitMessage x) ≠ cleanCommitMessage x :=
  ⟨str ": : a", by decide⟩

/-! ## Grouping -/

/-- The commits of a list that `CategorizeCommit` puts in category `c`, in list order. -/
theorem bucket_cons (x : Commit) (xs : List Commit) (c : CommitCategory) :
    (x :: xs).filter (fun y => CategorizeCommit y = c) =
      if CategorizeCommit x = c then x :: xs.filter (fun y => CategorizeCommit y = c)
      else xs.filter (fun y => CategorizeCommit y = c) := by
  by_cases h : CategorizeCommit x = c
  · rw [if_pos h, List.filter_cons_of_pos (by simpa using h)]
  · rw [if_neg h, List.filter_cons_of_neg (by simpa using h)]

/-- The loop of `GroupCommitsByCategory` started from any map `g0`: each bucket grows by
the commits of its category, in order, and no other key appears. -/
theorem group_loop (commits : List Commit) (g0 : CommitGroups) (c : CommitCategory) :
    commits.foldl
        (fun groups commit =>
          groups.assign (CategorizeCommit commit)
            (groups.index (CategorizeCommit commit) ++ [commit]))
        g0 c =
      if commits.filter (fun y => CategorizeCommit y = c) = [] then g0 c
      else some (g0.index c ++ commits.filter (fun y => CategorizeCommit y = c)) := by
  induction commits generalizing g0 with
  | nil => simp
  | cons x xs ih =>
    rw [List.foldl_cons, ih, bucket_cons]
    by_cases h : CategorizeCommit x = c
    · have hg : (g0.assign (CategorizeCommit x) (g0.index (CategorizeCommit x) ++ [x])) c =
          some (g0.index c ++ [x]) := by
        unfold CommitGroups.assign
        rw [if_pos h.symm, h]
      have hi : (g0.assign (CategorizeCommit x) (g0.index (CategorizeCommit x) ++ [x])).index c
          = g0.index c ++ [x] := by
        unfold CommitGroups.index at hg ⊢
        rw [hg]
        rfl
      rw [if_pos h, if_neg (List.cons_ne_nil _ _), hg, hi]
      by_cases h1 : xs.filter (fun y => CategorizeCommit y = c) = []
      · rw [if_pos h1, h1]
      · rw [if_neg h1, List.append_assoc]
        rfl
    · have h2 : ¬ c = CategorizeCommit x := fun e => h e.symm
      have hg : (g0.assign (CategorizeCommit x) (g0.index (CategorizeCommit x) ++ [x])) c =
          g0 c := by
        unfold CommitGroups.assign
        rw [if_neg h2]
      have hi : (g0.assign (CategorizeCommit x) (g0.index (CategorizeCommit x) ++ [x])).index c
          = g0.index c := by
        unfold CommitGroups.index at hg ⊢
        rw [hg]
      rw [if_neg h, hg, hi]

theorem group_eq (commits : List Commit) (c : CommitCategory) :
    GroupCommitsByCategory commits c =
      if commits.filter (fun y => CategorizeCommit y = c) = [] then none
      else some (commits.filter (fun y => CategorizeCommit y = c)) := by
  unfold GroupCommitsByCategory
  rw [group_loop]
  simp [CommitGroups.index]

theorem group_index (commits : List Commit) (c : CommitCategory) :
    (GroupCommitsByCategory commits).index c =
      commits.filter (fun y => CategorizeCommit y = c) := by
  unfold CommitGroups.index
  rw [group_eq]
  split_ifs with h
  · simp [h]
  · simp

theorem ite_mem {α : Type} {c : Prop} [Decidable c] {a b : α} {l : List α} (ha : a ∈ l)
    (hb : b ∈ l) : (if c then a else b) ∈ l := by
  split_ifs
  · exact ha
  · exact hb

/-- Classification is total over the closed set of nine categories. -/
theorem categorize_mem (commit : Commit) : CategorizeCommit commit ∈ categoryOrder := by
  unfold CategorizeCommit
  exact ite_mem (by decide) (ite_mem (by decide) (ite_mem (by decide) (ite_mem (by decide)
    (ite_mem (by decide) (ite_mem (by decide) (ite_mem (by decide) (ite_mem (by decide)
    (ite_mem (by decide) (ite_mem (by decide) (ite_mem (by decide) (by decide)))))))))))

theorem categoryOrder_nodup : categoryOrder.Nodup := by
  decide

theorem sum_indicator {α : Type} [DecidableEq α] (l : List α) (a : α) :
    (l.map fun c => if a = c then 1 else 0).sum = l.count a := by
  induction l with
  | nil => rfl
  | cons b l ih =>
    rw [List.map_cons, List.sum_cons, ih, List.count_cons]
    by_cases h : a = b
    · subst h
      simp
      omega
    · have h2 : ¬ b = a := fun e => h e.symm
      simp [h, h2]

theorem bucket_lengths_sum (commits : List Commit) :
    (categoryOrder.map fun c =>
      (commits.filter (fun y => CategorizeCommit y = c)).length).sum = commits.length := by
  induction commits with
  | nil => simp
  | cons x xs ih =>
    have h1 : ∀ c, ((x :: xs).filter (fun y => CategorizeCommit y = c)).length =
        (xs.filter (fun y => CategorizeCommit y = c)).length +
          (if CategorizeCommit x = c then 1 else 0) := by
      intro c
      rw [bucket_cons]
      split_ifs <;> simp
    simp only [h1]
    rw [List.sum_map_add, ih, sum_indicator,
      List.count_eq_one_of_mem categoryOrder_nodup (categorize_mem x)]
    simp

/-- C8: for every list of commits and every category `c`, the map returned by
`GroupCommitsByCategory` holds under `c` exactly the commits that `CategorizeCommit` puts
in `c`, in input order, and `c` is absent when there is none; the bucket lengths over the
nine categories add up to the number of commits. -/
theorem group_buckets (commits : List Commit) :
    (∀ c : CommitCategory, GroupCommitsByCategory commits c =
      if commits.filter (fun y => CategorizeCommit y = c) = [] then none
      else some (commits.filter (fun y => CategorizeCommit y = c))) ∧
    (categoryOrder.map fun c => ((GroupCommitsByCategory commits).index c).length).sum =
      commits.length := by
  refine ⟨group_eq commits, ?_⟩
  simp only [group_index]
  exact bucket_lengths_sum commits

/-! ## Rendering -/

theorem commitLinesLoop_eq (cs : List Commit) (md : GoString) :
    commitLinesLoop cs md = md ++ cs.flatMap renderItem := by
  induction cs generalizing md with
  | nil => simp [commitLinesLoop]
  | cons c cs ih =>
    unfold commitLinesLoop
    dsimp only
    rw [ih]
    simp [renderItem]

theorem categoryLoop_eq (commits : List Commit) (cats : List CommitCategory) (md : GoString) :
    categoryLoop (GroupCommitsByCategory commits) cats md =
      md ++ cats.flatMap (renderSection commits) := by
  induction cats generalizing md with
  | nil => simp [categoryLoop]
  | cons c cats ih =>
    unfold categoryLoop
    rw [group_eq]
    by_cases h : commits.filter (fun y => CategorizeCommit y = c) = []
    · rw [if_pos h]
      dsimp only
      rw [ih, List.flatMap_cons, renderSection, if_pos h]
      rfl
    · rw [if_neg h]
      dsimp only
      rw [if_neg (by simpa using h), ih, commitLinesLoop_eq, List.flatMap_cons, renderSection,
        if_neg h]
      simp only [List.append_assoc]

theorem generateMarkdown_eq (commits : List Commit) (projectName version date : GoString) :
    GenerateMarkdown commits projectName version date =
      renderRef commits projectName version date := by
  have e1 : str "\n\n" ++ str "## Version " = str "\n\n## Version " := by decide
  have e2 : str "\n" ++ str "**Generated:** " = str "\n**Generated:** " := by decide
  have e3 : str "---\n" ++ str "*Total commits: " = str "---\n*Total commits: " := by decide
  unfold GenerateMarkdown renderRef
  dsimp only
  rw [categoryLoop_eq, ← e1, ← e2, ← e3]
  simp only [List.append_assoc, categoryOrder]

/-- C9: for every list of commits, project name, version and date string,
`GenerateMarkdown` returns the header "# Changelog - {name}\n\n## Version {version}\n
**Generated:** {date}\n\n", then for each category that has a commit, in the order
Breaking, Feature, Fix, Performance, Refactor, Docs, Test, Chore, Other, the section
"### {label}\n\n" with one line "- {cleaned message} ([{hash}])\n" per commit of the
category in input order and a closing "\n" (nothing for a category without commits), then
the footer "---\n*Total commits: N*\n" with N the number of commits. -/
theorem generateMarkdown_layout (commits : List Commit) (projectName version date : GoString) :
    GenerateMarkdown commits projectName version date =
      renderRef commits projectName version date :=
  generateMarkdown_eq commits projectName version date

set_option maxRecDepth 100000 in
/-- C10, evaluated: for the three commits of the example, project "Demo" and version "1.0",
the document has the three sections Features, Bug Fixes, Documentation and the footer, but
the Bug Fixes item reads "- Fix: button alignment ([b2])": the scoped header "fix(ui): " is
not stripped to "Button alignment". -/
theorem generateMarkdown_demo (date : GoString) :
    GenerateMarkdown demoCommits (str "Demo") (str "1.0") date =
      str "# Changelog - Demo\n\n## Version 1.0\n**Generated:** " ++ date ++
        str ("\n\n###  Features\n\n- Add search ([a1])\n\n" ++
          "###  Bug Fixes\n\n- Fix: button alignment ([b2])\n\n" ++
          "###  Documentation\n\n- Update readme ([c3])\n\n" ++
          "---\n*Total commits: 3*\n") := by
  have e1 : str "# Changelog - " ++ str "Demo" ++ str "\n\n## Version " ++ str "1.0" ++
      str "\n**Generated:** " = str "# Changelog - Demo\n\n## Version 1.0\n**Generated:** " := by
    decide
  have e2 : str "\n\n" ++
      [CategoryBreaking, CategoryFeature, CategoryFix, CategoryPerformance, CategoryRefactor,
        CategoryDocs, CategoryTest, CategoryChore, CategoryOther].flatMap
          (renderSection demoCommits) ++
      str "---\n*Total commits: " ++ fmtInt demoCommits.length ++ str "*\n" =
      str ("\n\n###  Features\n\n- Add search ([a1])\n\n" ++
          "###  Bug Fixes\n\n- Fix: button alignment ([b2])\n\n" ++
          "###  Documentation\n\n- Update readme ([c3])\n\n" ++
          "---\n*Total commits: 3*\n") := by
    decide
  rw [generateMarkdown_eq, renderRef, ← e1, ← e2]
  simp only [List.append_assoc]

/-! ## Enhancement fallback -/

/-- `ImproveCommitMessage` never returns an error. -/
theorem improveCommitMessage_err (callClaude : RemoteCall) (commit : Commit) :
    (ImproveCommitMessage callClaude commit).2 = none := by
  unfold ImproveCommitMessage
  dsimp only
  cases callClaude (improvePrompt commit.Message) <;> rfl

theorem cleanCommitMessageAI_eq (msg : GoString) : cleanCommitMessageAI msg = firstLine msg :=
  rfl

theorem rawFirstLine_split (msg : GoString) :
    rawFirstLine msg = msg ∨ ∃ rest, msg = rawFirstLine msg ++ 10 :: rest := by
  unfold rawFirstLine
  induction msg with
  | nil => exact Or.inl rfl
  | cons b s ih =>
    by_cases hb : b = 10
    · subst hb
      exact Or.inr ⟨s, by rw [List.takeWhile_cons_of_neg (by simp)]; rfl⟩
    · rw [List.takeWhile_cons_of_pos (by simpa using hb)]
      rcases ih with h | ⟨rest, h⟩
      · exact Or.inl (by rw [h])
      · exact Or.inr ⟨rest, by rw [List.cons_append, ← h]⟩

theorem newline_not_mem_rawFirstLine (msg : GoString) : 10 ∉ rawFirstLine msg := by
  intro h
  have := List.mem_takeWhile_imp h
  simp at this

/-- The runes that `range` yields before the first newline rune are the runes of the raw
first line: a newline byte never continues a multi-byte sequence. -/
theorem runes_takeWhile (msg : GoString) :
    (runes msg).takeWhile (fun c => decide (c ≠ 10)) = runes (rawFirstLine msg) := by
  have hno : ∀ c ∈ runes (rawFirstLine msg), (fun c => decide (c ≠ 10)) c = true := by
    intro c hc
    have : c ≠ 10 := fun e =>
      newline_not_mem_rawFirstLine msg (mem_of_mem_runes 10 (by omega) _ (e ▸ hc))
    simpa using this
  rcases rawFirstLine_split msg with h | ⟨rest, h⟩
  · rw [h] at hno ⊢
    exact List.takeWhile_eq_self_iff.2 hno
  · nth_rewrite 1 [h]
    rw [runes_append_ascii _ 10 rest (by omega), List.takeWhile_append_of_pos hno,
      List.takeWhile_cons_of_neg (by simp), List.append_nil]

/-- The fallback of `ImproveCommitMessage` on any byte string: the raw first line, read by
`range` and written back rune by rune. -/
theorem cleanCommitMessageAI_raw (msg : GoString) :
    cleanCommitMessageAI msg = reencode (rawFirstLine msg) := by
  unfold cleanCommitMessageAI reencode
  rw [firstLineLoop_eq, List.nil_append, runes_takeWhile]

theorem validRune_toNat (c : Char) : validRune c.toNat := by
  have h := c.valid
  unfold validRune
  simp only [UInt32.isValidChar, Nat.isValidChar] at h
  show c.val.toNat ≤ 0x10FFFF ∧ ¬ (0xD800 ≤ c.val.toNat ∧ c.val.toNat ≤ 0xDFFF)
  omega

/-- The UTF-8 form of a Unicode text is valid UTF-8. -/
theorem validUtf8_str (text : String) : validUtf8 (str text) := by
  have h : str text = (text.toList.map Char.toNat).flatMap encoderune := by
    unfold str
    induction text.toList with
    | nil => rfl
    | cons c cs ih => simp [List.flatMap_cons, ih]
  rw [h]
  apply validUtf8_flatMap
  intro c hc
  obtain ⟨a, _, rfl⟩ := List.mem_map.1 hc
  exact validRune_toNat a

/-- The fallback of `ImproveCommitMessage` on the UTF-8 form of a text: the bytes before
the first newline. -/
theorem cleanCommitMessageAI_text (text : String) :
    cleanCommitMessageAI (str text) = rawFirstLine (str text) :=
  firstLine_eq_takeWhile (str text) (validUtf8_str text)

theorem improveCommitMessage_ok (callClaude : RemoteCall) (commit : Commit) (r : GoString)
    (h : callClaude (improvePrompt commit.Message) = .ok r) :
    ImproveCommitMessage callClaude commit = (r, none) := by
  unfold ImproveCommitMessage
  dsimp only
  rw [h]

theorem improveCommitMessage_error (callClaude : RemoteCall) (commit : Commit) (e : GoString)
    (h : callClaude (improvePrompt commit.Message) = .error e) :
    ImproveCommitMessage callClaude commit = (cleanCommitMessageAI commit.Message, none) := by
  unfold ImproveCommitMessage
  dsimp only
  rw [h]

theorem enhancedFrom_step (callClaude : RemoteCall) (commit : Commit) :
    enhancedFrom callClaude commit
      { commit with Message := (ImproveCommitMessage callClaude commit).1 } := by
  cases hcall : callClaude (improvePrompt commit.Message) with
  | error e =>
    rw [improveCommitMessage_error callClaude commit e hcall]
    refine ⟨rfl, rfl, rfl, ?_, ?_⟩
    · intro r hr
      rw [hcall] at hr
      cases hr
    · intro _ _
      refine ⟨cleanCommitMessageAI_raw commit.Message, fun text ht => ?_⟩
      show cleanCommitMessageAI commit.Message = rawFirstLine commit.Message
      rw [ht]
      exact cleanCommitMessageAI_text text
  | ok response =>
    rw [improveCommitMessage_ok callClaude commit response hcall]
    refine ⟨rfl, rfl, rfl, ?_, ?_⟩
    · intro r hr
      rw [hcall] at hr
      cases hr
      rfl
    · intro e he
      rw [hcall] at he
      cases he

theorem improveAllCommits_forall₂ (callClaude : RemoteCall) (commits : List Commit) :
    List.Forall₂ (enhancedFrom callClaude) commits (ImproveAllCommits callClaude commits) := by
  induction commits with
  | nil => exact List.Forall₂.nil
  | cons commit rest ih =>
    have hstep := enhancedFrom_step callClaude commit
    have herr := improveCommitMessage_err callClaude commit
    rw [ImproveAllCommits]
    cases hres : ImproveCommitMessage callClaude commit with
    | mk improved err =>
      rw [hres] at hstep herr
      have herr2 : err = none := herr
      subst herr2
      exact List.Forall₂.cons hstep ih

/-- The fallback on a message that is not valid UTF-8: the byte 0xFF before the newline
comes back as the three bytes of U+FFFD. -/
theorem improve_fallback_invalid_example :
    (ImproveAllCommits (fun _ => .error (str "API request failed"))
        [⟨str "a1", str "dev", 0, [0xFF, 0x61, 10, 0x62]⟩]).map Commit.Message =
      [[0xEF, 0xBF, 0xBD, 0x61]] := by
  decide

/-- C11 as stated fails: when the call fails for the commit "fix: resolve crash\nbody",
`ImproveAllCommits` leaves the message "fix: resolve crash", the first line with its
prefix and without a capital, while the cleaning of section 4.2 gives "Resolve crash". -/
theorem improve_fallback_counterexample :
    (ImproveAllCommits (fun _ => .error (str "API request failed"))
        [⟨str "a1", str "dev", 0, str "fix: resolve crash\nbody"⟩]).map Commit.Message =
      [str "fix: resolve crash"] ∧
    cleanCommitMessage (str "fix: resolve crash\nbody") = str "Resolve crash" ∧
    (ImproveAllCommits (fun _ => .error (str "API request failed"))
        [⟨str "a1", str "dev", 0, str "fix: resolve crash\nbody"⟩]).map Commit.Message ≠
      [cleanCommitMessage (str "fix: resolve crash\nbody")] := by
  decide

/-- C11, amended: with the remote call a function that may fail, for every list of commits
`ImproveAllCommits` goes through all commits in order and keeps hash, author and date; a
commit whose call succeeds gets the returned text; a commit whose call fails gets the
first line of its raw message, that is the bytes before the first newline with every byte
that is not part of a valid UTF-8 sequence replaced by U+FFFD, and exactly the bytes
before the first newline when the raw message is UTF-8 text (prefix and scope are kept,
nothing is capitalised). -/
theorem improve_fallback_first_line (callClaude : RemoteCall) (commits : List Commit) :
    List.Forall₂ (enhancedFrom callClaude) commits (ImproveAllCommits callClaude commits) :=
  improveAllCommits_forall₂ callClaude commits

/-! ## Exit status -/

/-- Whenever `rootCmd.Execute()` returns, with an error or without, `main` ends the
process with status 1. -/
theorem main_exit_of_returned (execute : GoString → ExecResult) (stdout : GoString)
    (err : Option GoString) (h : execute [] = .returned stdout err) :
    (main execute).2 = 1 := by
  unfold main
  rw [h]

set_option maxRecDepth 100000 in
/-- C12, evaluated: started without a subcommand the program prints the usage banner and
the root command reports no error, but `main` then calls `os.Exit(1)`: the exit status is
1, where the claim says 0. -/
theorem main_bare_invocation :
    main executeBare =
      (str (" Welcome to Changelog Generator!\n\nAvailable commands:\n" ++
        "  init      - Initialize configuration\n  generate  - Generate a changelog\n\n" ++
        "Run 'changelog --help' for more information\n"), 1) ∧
    (main executeBare).2 ≠ 0 := by
  decide

end Changelog
